import Mathlib

/-!
Verification of the legion-router egress-filtering gateway.

This file gives a shallow embedding, in Lean 4, of the core of the
legion-router repository and proves (or refutes) a list of claims about
its behavior.  Strings are modelled as lists of characters (`Str`), Go
slices as Lean lists, the nftables kernel interface as an explicit state
record mutated by the `Manager` operations, and time as natural-number
seconds passed explicitly.  External effects (DNS lookups, kernel commit
results, config-file reads) are passed in as explicit oracle parameters,
mirroring exactly the points where the Go code consumes their results.

Embedded components:
 * `pkg/filter/wildcard.go` : `MatchWildcard`
 * `pkg/nftables` (manager) : `sanitizeName`, `protocolToNum`,
   `buildPortExpression`, `buildRuleExpressions`, `addIPsToSet`,
   `Manager.setup`, `Manager.addRule`, `Manager.updateIPs`,
   `Manager.cleanup`
 * `pkg/config/config.go`   : `Config`, `Rule`, validation, and the
   `sort.Slice` call of `Load` (Go 1.21 pdqsort, transcribed)
 * `pkg/filter/filter.go`   : `applyRule`, `applyRules`, `reloadConfig`,
   `updateDomainIPs`, `isWildcard`
 * `pkg/dns/resolver.go`    : the cache logic of `Resolver.Resolve`
-/

/-- Go strings, modelled as lists of characters. -/
abbrev Str := List Char

/-- Go `strings.HasPrefix s pre`. -/
def goHasPrefix (s pre : Str) : Bool := pre.isPrefixOf s

/-- Go `strings.HasSuffix s suf`. -/
def goHasSuffix (s suf : Str) : Bool := suf.isSuffixOf s

/-- `MatchWildcard` from `pkg/filter/wildcard.go`: exact match, otherwise a
pattern starting with the two characters `*.` matches when the domain ends
with the pattern's suffix either exactly or at a dot boundary. -/
def MatchWildcard (pattern domain : Str) : Bool :=
  if pattern = domain then
    true
  else if !(goHasPrefix pattern ['*', '.']) then
    false
  else
    let suffix := pattern.drop 2
    if !(goHasSuffix domain suffix) then
      false
    else if domain.length = suffix.length then
      true
    else
      goHasSuffix (domain.take (domain.length - suffix.length)) ['.']

/-- The specification's description of the matcher: exact equality, or a
wildcard pattern whose suffix is the whole domain or a dot-delimited tail
of it. -/
def MatchSpec (p d : Str) : Prop :=
  p = d ∨ ∃ s, p = '*' :: '.' :: s ∧ (d = s ∨ ∃ x, d = x ++ '.' :: s)

section WildcardProofs

private lemma dotTail_iff {d s t : Str} (ht : t ++ s = d)
    (hlen : d.length ≠ s.length) :
    (goHasSuffix (d.take (d.length - s.length)) ['.'] = true) ↔
      ∃ x, d = x ++ '.' :: s := by
  have htake : d.take (d.length - s.length) = t := by
    subst ht
    simp [List.take_left']
  rw [goHasSuffix, htake, List.isSuffixOf_iff_suffix]
  constructor
  · rintro ⟨x, rfl⟩
    exact ⟨x, by simp [← ht]⟩
  · rintro ⟨x, hx⟩
    have : (x ++ ['.']) ++ s = t ++ s := by simpa using hx.symm.trans ht.symm
    exact ⟨x, List.append_cancel_right this⟩

/-- C8: `MatchWildcard p d` is true iff `p = d`, or `p` has the form
`"*." ++ s` and either `d = s` or `d` ends with `"." ++ s` as a
dot-delimited tail; in particular `fooexample.com` does not match
`*.example.com`, and a non-wildcard pattern matches only on equality. -/
theorem matchWildcard_iff_matchSpec :
    (∀ p d : Str, MatchWildcard p d = true ↔ MatchSpec p d) ∧
      MatchWildcard "*.example.com".toList "fooexample.com".toList = false := by
  refine ⟨fun p d => ?_, by decide⟩
  by_cases hpd : p = d
  · simp [MatchWildcard, MatchSpec, hpd]
  · rw [MatchWildcard]
    rw [if_neg hpd]
    cases hpre : goHasPrefix p ['*', '.'] with
    | false =>
      simp only [Bool.not_false, if_true]
      constructor
      · intro h; exact absurd h (by simp)
      · rintro (h | ⟨s, rfl, _⟩)
        · exact absurd h hpd
        · rw [goHasPrefix] at hpre
          simp [List.isPrefixOf] at hpre
    | true =>
      rw [goHasPrefix, List.isPrefixOf_iff_prefix] at hpre
      obtain ⟨tl, htl⟩ := hpre
      obtain rfl : p = '*' :: '.' :: tl := htl.symm
      have hdrop : List.drop 2 ('*' :: '.' :: tl) = tl := rfl
      simp only [Bool.not_true, if_false, hdrop]
      cases hsuf : goHasSuffix d tl with
      | false =>
        simp only [Bool.not_false, if_true]
        constructor
        · intro h; exact absurd h (by simp)
        · rintro (h | ⟨s, hs, hd⟩)
          · exact absurd h hpd
          · obtain rfl : tl = s := by simpa using hs
            have hsfx : tl <:+ d := by
              rcases hd with rfl | ⟨x, rfl⟩
              · exact List.suffix_refl _
              · exact ⟨x ++ ['.'], by simp⟩
            rw [goHasSuffix] at hsuf
            exact absurd (List.isSuffixOf_iff_suffix.mpr hsfx) (by simp [hsuf])
      | true =>
        rw [goHasSuffix, List.isSuffixOf_iff_suffix] at hsuf
        obtain ⟨t, ht⟩ := hsuf
        simp only [Bool.not_true, Bool.false_eq_true, if_false]
        by_cases hlen : d.length = tl.length
        · obtain rfl : d = tl := by
            have hl : t.length + tl.length = d.length := by
              simpa using congrArg List.length ht
            have ht0 : t.length = 0 := by omega
            rw [List.length_eq_zero] at ht0
            subst ht0
            simpa using ht.symm
          simp [MatchSpec]
        · rw [if_neg hlen]
          rw [dotTail_iff ht hlen]
          constructor
          · rintro ⟨x, hx⟩
            exact Or.inr ⟨tl, rfl, Or.inr ⟨x, hx⟩⟩
          · rintro (h | ⟨s, hs, hd⟩)
            · exact absurd h hpd
            · obtain rfl : tl = s := by simpa using hs
              rcases hd with rfl | hx
              · exact absurd rfl hlen
              · exact hx

end WildcardProofs

/-! ## The nftables manager (`pkg/nftables`)

Kernel state (table, egress chain, NAT chain, named address sets) is an
explicit record.  Each manager operation batches its mutations and commits
them at its `conn.Flush()` call; a `KernelEnv` oracle decides, per commit,
whether the kernel accepts the (atomic) batch.  Go-side manager fields
(`m.table`, `m.sets`) are mutated before the flush, so they update even
when the commit fails, exactly as in the source. -/

/-- A verdict expression kind (`expr.VerdictAccept` / `expr.VerdictDrop`). -/
inductive Verdict
  | accept
  | drop
  deriving DecidableEq, Repr

/-- The nftables match/verdict expressions emitted by the manager.  Two-byte
compare data `[]byte{byte(v >> 8), byte(v & 0xff)}` is stored as the port
value itself (the big-endian encoding is a bijection below 65536). -/
inductive NftExpr
  | metaL4Proto
  | cmpU8 (v : Nat)
  | payloadDstIP
  | lookupSet (setName : Str)
  | payloadDstPort
  | cmpU16 (v : Nat)
  | rangeU16 (lo hi : Nat)
  | masquerade
  | verdict (v : Verdict)
  deriving DecidableEq, Repr

/-- One rule sitting in a kernel chain: its ordered expression list. -/
structure ChainRule where
  exprs : List NftExpr
  deriving DecidableEq, Repr

/-- The kernel-resident filtering objects owned by the manager. -/
structure KernelState where
  tableExists : Bool
  chainRules : List ChainRule
  natRules : List ChainRule
  sets : List (Str × List (List Nat))
  deriving DecidableEq, Repr

/-- The manager: kernel state plus the Go-side fields of `nftables.Manager`
(`m.table` as a non-nil flag, `m.sets` as rule-name → set-name), and the
count of kernel commits attempted so far. -/
structure Manager where
  kernel : KernelState
  tablePtr : Bool
  setsMap : List (Str × Str)
  flushCount : Nat
  deriving DecidableEq, Repr

/-- Oracle deciding whether the n-th kernel commit (`conn.Flush`) succeeds.
A netlink batch is atomic: a failed commit applies none of its mutations. -/
structure KernelEnv where
  flushOk : Nat → Bool

/-- The environment in which every kernel commit succeeds. -/
def allOk : KernelEnv := ⟨fun _ => true⟩

/-- `nftables.Rule`: the manager's input structure. -/
structure NftRule where
  name : Str
  action : Str
  priority : Int
  ips : List Str
  ports : List Str
  protocols : List Str
  deriving DecidableEq, Repr

/-- Association-list lookup keyed by `Str` (a Go map read). -/
def alookup {β : Type} : List (Str × β) → Str → Option β
  | [], _ => none
  | (k', v) :: rest, k => if k' = k then some v else alookup rest k

/-- Association-list write (a Go map assignment: overwrite or insert). -/
def aupdate {β : Type} (l : List (Str × β)) (k : Str) (v : β) : List (Str × β) :=
  if (alookup l k).isSome then
    l.map (fun p => if p.1 = k then (k, v) else p)
  else
    l ++ [(k, v)]

/-- Append elements to the named kernel set (`conn.SetAddElements`). -/
def setAdd (sets : List (Str × List (List Nat))) (sn : Str)
    (elems : List (List Nat)) : List (Str × List (List Nat)) :=
  sets.map (fun p => if p.1 = sn then (p.1, p.2 ++ elems) else p)

/-- Decimal digit test. -/
def isDigitChar (c : Char) : Bool := '0' ≤ c ∧ c ≤ '9'

/-- Numeric value of a digit string. -/
def digitsVal (s : Str) : Nat :=
  s.foldl (fun acc c => acc * 10 + (c.toNat - '0'.toNat)) 0

/-- Scan a leading unsigned decimal as `fmt.Sscanf` does for `%d` into a
`uint16`: at least one digit, value below 2^16, rest of input returned. -/
def scanU16 (s : Str) : Option (Nat × Str) :=
  let ds := s.takeWhile isDigitChar
  if ds = [] then none
  else if digitsVal ds < 65536 then some (digitsVal ds, s.dropWhile isDigitChar)
  else none

/-- Index of the first occurrence of `c` (Go `strings.Index` for a
one-character separator), `none` when absent. -/
def goIndexChar (s : Str) (c : Char) : Option Nat :=
  s.findIdx? (fun x => x = c)

/-- One dotted-quad octet as `net.ParseIP` accepts it: one to three decimal
digits, no leading zero, value at most 255. -/
def parseOctet (s : Str) : Option Nat :=
  if s = [] then none
  else if ¬ (s.all isDigitChar) then none
  else if 1 < s.length ∧ s.head? = some '0' then none
  else if digitsVal s ≤ 255 then some (digitsVal s) else none

/-- `net.ParseIP(...).To4()` for dotted-quad IPv4 literals, as the four
byte values.  (Other syntaxes — IPv6 — yield `To4() == nil` and are treated
as unparseable, which the callers below skip.) -/
def parseIPv4 (s : Str) : Option (List Nat) :=
  match s.splitOn '.' with
  | [a, b, c, d] => do
      let a' ← parseOctet a
      let b' ← parseOctet b
      let c' ← parseOctet c
      let d' ← parseOctet d
      pure [a', b', c', d']
  | _ => none

/-- Zero the host bits of an IPv4 address for a given mask length
(`ip.Mask(mask)` inside `net.ParseCIDR`). -/
def maskBytes (ip : List Nat) (n : Nat) : List Nat :=
  (List.range 4).map (fun i =>
    let keep := min 8 (n - 8 * i)
    ip.getD i 0 / 2 ^ (8 - keep) * 2 ^ (8 - keep))

/-- `net.ParseCIDR`, reduced to what `addIPsToSet` consumes: the masked
network address (`ipNet.IP.To4()`) of an `a.b.c.d/len` literal. -/
def parseCIDR (s : Str) : Option (List Nat) :=
  match goIndexChar s '/' with
  | none => none
  | some i => do
      let ip ← parseIPv4 (s.take i)
      let m := s.drop (i + 1)
      if m = [] then failure
      else if ¬ (m.all isDigitChar) then failure
      else if 1 < m.length ∧ m.head? = some '0' then failure
      else if digitsVal m ≤ 32 then pure (maskBytes ip (digitsVal m))
      else failure

/-- `addIPsToSet`'s parsing pass: CIDR entries are reduced to their network
address, plain addresses are parsed, anything else is logged and skipped. -/
def parseSetElems (ips : List Str) : List (List Nat) :=
  ips.filterMap (fun s =>
    match parseCIDR s with
    | some net => some net
    | none => parseIPv4 s)

/-- `protocolToNum` from the manager: tcp/udp/icmp to IP protocol number. -/
def protocolToNum (proto : Str) : Nat :=
  if proto = "tcp".toList then 6
  else if proto = "udp".toList then 17
  else if proto = "icmp".toList then 1
  else 0

/-- `sanitizeName`'s per-character rule: keep `[A-Za-z0-9_]`, replace
everything else with an underscore. -/
def sanitizeChar (c : Char) : Char :=
  if ('a' ≤ c ∧ c ≤ 'z') ∨ ('A' ≤ c ∧ c ≤ 'Z') ∨ ('0' ≤ c ∧ c ≤ '9') ∨ c = '_'
  then c else '_'

/-- `sanitizeName` from the manager (the Go loop appends one character per
input character, i.e. a map). -/
def sanitizeName (name : Str) : Str := name.map sanitizeChar

/-- The kernel set name `AddRule` derives for a rule name
(`fmt.Sprintf("ips_%s", sanitizeName(name))`). -/
def setNameFor (name : Str) : Str := "ips_".toList ++ sanitizeName name

/-- `buildPortExpression`: a single port compiles to a payload load plus an
equality compare; `LOW-HIGH` to a payload load plus a range compare;
`LOW > HIGH` and malformed entries fail (`none`). -/
def buildPortExpression (portStr : Str) : Option (List NftExpr) :=
  let single : Option (List NftExpr) :=
    match scanU16 portStr with
    | none => none
    | some (port, _) => some [NftExpr.payloadDstPort, NftExpr.cmpU16 port]
  match goIndexChar portStr '-' with
  | some idx =>
    if 0 < idx then
      match scanU16 portStr with
      | none => none
      | some (startPort, rest) =>
        match rest with
        | '-' :: rest2 =>
          match scanU16 rest2 with
          | none => none
          | some (endPort, _) =>
            if startPort > endPort then none
            else some [NftExpr.payloadDstPort, NftExpr.rangeU16 startPort endPort]
        | _ => none
    else single
  | none => single

/-- `buildRuleExpressions`: protocol compares (one meta-load/compare pair
appended per listed protocol), then the destination-address set lookup when
a set exists, then port compares (each entry's expressions appended;
malformed entries logged and skipped), then the verdict — all in one
expression list of one rule. -/
def buildRuleExpressions (r : NftRule) (ipSet : Option Str) : List NftExpr :=
  let protoExprs := r.protocols.foldl (fun acc p =>
    acc ++ [NftExpr.metaL4Proto, NftExpr.cmpU8 (protocolToNum p)]) []
  let ipExprs : List NftExpr :=
    match ipSet with
    | some sn => [NftExpr.payloadDstIP, NftExpr.lookupSet sn]
    | none => []
  let portExprs := r.ports.foldl (fun acc ps =>
    match buildPortExpression ps with
    | none => acc
    | some es => acc ++ es) []
  protoExprs ++ ipExprs ++ portExprs ++
    [NftExpr.verdict (if r.action = "allow".toList then Verdict.accept else Verdict.drop)]

/-- `Manager.Setup`: create the table, the forward filter chain with the
unconditional drop appended, and the NAT chain with its masquerade rule;
commit as one batch. -/
def Manager.setup (env : KernelEnv) (m : Manager) : Manager × Bool :=
  let cand : KernelState :=
    { m.kernel with
        tableExists := true
        natRules := m.kernel.natRules ++ [⟨[NftExpr.masquerade]⟩]
        chainRules := m.kernel.chainRules ++ [⟨[NftExpr.verdict Verdict.drop]⟩] }
  let mGo := { m with tablePtr := true }
  if env.flushOk m.flushCount then
    ({ mGo with kernel := cand, flushCount := m.flushCount + 1 }, true)
  else
    ({ mGo with flushCount := m.flushCount + 1 }, false)

/-- `Manager.AddRule`: for an address-bearing rule create-or-reuse the set
named after the rule, record it in `m.sets`, append the parsed addresses;
build the expression list; append the rule to the chain; commit. -/
def Manager.addRule (env : KernelEnv) (m : Manager) (r : NftRule) : Manager × Bool :=
  let noIPs := r.ips = []
  let sn? : Option Str := if noIPs then none else some (setNameFor r.name)
  let kSets :=
    match sn? with
    | none => m.kernel.sets
    | some sn =>
      let created := if (alookup m.kernel.sets sn).isSome then m.kernel.sets
                     else m.kernel.sets ++ [(sn, [])]
      setAdd created sn (parseSetElems r.ips)
  let sm :=
    match sn? with
    | none => m.setsMap
    | some sn => aupdate m.setsMap r.name sn
  let exprs := buildRuleExpressions r sn?
  let cand := { m.kernel with sets := kSets, chainRules := m.kernel.chainRules ++ [⟨exprs⟩] }
  let mGo := { m with setsMap := sm }
  if env.flushOk m.flushCount then
    ({ mGo with kernel := cand, flushCount := m.flushCount + 1 }, true)
  else
    ({ mGo with flushCount := m.flushCount + 1 }, false)

/-- `Manager.UpdateIPs`: look the rule name up in `m.sets`; fail not-found
when absent; otherwise `addIPsToSet` the new addresses into the existing
set (the TODO flush of existing elements is absent in the source, and
`SetAddElements` issues no kernel commit of its own). -/
def Manager.updateIPs (m : Manager) (ruleName : Str) (ips : List Str) :
    Manager × Bool :=
  match alookup m.setsMap ruleName with
  | none => (m, false)
  | some sn =>
    ({ m with kernel :=
        { m.kernel with sets := setAdd m.kernel.sets sn (parseSetElems ips) } },
      true)

/-- `Manager.Cleanup`: delete the owned table (and everything in it) when
the Go-side table handle is set, then commit.  The Go-side `m.sets` map is
not cleared by the source. -/
def Manager.cleanup (env : KernelEnv) (m : Manager) : Manager × Bool :=
  let cand : KernelState :=
    if m.tablePtr then
      { tableExists := false, chainRules := [], natRules := [], sets := [] }
    else
      m.kernel
  if env.flushOk m.flushCount then
    ({ m with kernel := cand, flushCount := m.flushCount + 1 }, true)
  else
    ({ m with flushCount := m.flushCount + 1 }, false)

/-- A fresh manager (`NewManager`). -/
def Manager.new : Manager :=
  { kernel := { tableExists := false, chainRules := [], natRules := [], sets := [] }
    tablePtr := false
    setsMap := []
    flushCount := 0 }

/-! ## Packet-level semantics of the compiled expressions

Standard nftables rule evaluation: expressions run left to right over a
register; a failed compare stops the rule (no match), a verdict expression
ends evaluation with that verdict; the chain tries rules in order. -/

/-- A forwarded IPv4 packet, reduced to the fields the compiled
expressions inspect. -/
structure Packet where
  proto : Nat
  dstIP : List Nat
  dstPort : Nat
  deriving DecidableEq, Repr

/-- Big-endian two-byte encoding of a port value. -/
def u16be (v : Nat) : List Nat := [v / 256 % 256, v % 256]

/-- Evaluate one rule's expression list against a packet.  `none` means the
rule does not match and evaluation falls through to the next rule. -/
def evalExprs (sets : List (Str × List (List Nat))) (pkt : Packet) :
    List NftExpr → List Nat → Option Verdict
  | [], _ => none
  | e :: rest, reg =>
    match e with
    | .metaL4Proto => evalExprs sets pkt rest [pkt.proto]
    | .cmpU8 v => if reg = [v] then evalExprs sets pkt rest reg else none
    | .payloadDstIP => evalExprs sets pkt rest pkt.dstIP
    | .lookupSet sn =>
      match alookup sets sn with
      | some elems => if reg ∈ elems then evalExprs sets pkt rest reg else none
      | none => none
    | .payloadDstPort => evalExprs sets pkt rest (u16be pkt.dstPort)
    | .cmpU16 v => if reg = u16be v then evalExprs sets pkt rest reg else none
    | .rangeU16 lo hi =>
      if reg = u16be pkt.dstPort ∧ lo ≤ pkt.dstPort ∧ pkt.dstPort ≤ hi then
        evalExprs sets pkt rest reg
      else none
    | .masquerade => evalExprs sets pkt rest reg
    | .verdict v => some v

/-- Evaluate the egress chain: the first rule that yields a verdict wins. -/
def evalChain (k : KernelState) (pkt : Packet) : Option Verdict :=
  k.chainRules.findSome? (fun cr => evalExprs k.sets pkt cr.exprs [])

/-! ## Concrete manager-level results (claims C1, C3, C5, C10) -/

/-- A protocol-only allow rule, as the orchestrator would submit it. -/
def udpAllowRule : NftRule :=
  { name := "allow-dns".toList, action := "allow".toList, priority := 100
    ips := [], ports := [], protocols := ["udp".toList] }

/-- C1: refuted on the code — `Setup` appends the terminal drop first and
`AddRule` appends every rule after it, so after one `AddRule` the drop is
the first instruction of the chain and no longer the last (it is the last
only for an empty rule set). -/
theorem terminal_drop_not_last_after_addRule :
    ((Manager.setup allOk Manager.new).1.kernel.chainRules.getLast? =
        some ⟨[NftExpr.verdict Verdict.drop]⟩) ∧
    ((Manager.addRule allOk (Manager.setup allOk Manager.new).1
        udpAllowRule).1.kernel.chainRules =
      [⟨[NftExpr.verdict Verdict.drop]⟩,
       ⟨[NftExpr.metaL4Proto, NftExpr.cmpU8 17, NftExpr.verdict Verdict.accept]⟩]) ∧
    ((Manager.addRule allOk (Manager.setup allOk Manager.new).1
        udpAllowRule).1.kernel.chainRules.getLast? ≠
      some ⟨[NftExpr.verdict Verdict.drop]⟩) := by
  refine ⟨rfl, by decide, by decide⟩

/-- A rule listing two protocols. -/
def tcpUdpRule : NftRule :=
  { name := "multi-proto".toList, action := "allow".toList, priority := 10
    ips := [], ports := [], protocols := ["tcp".toList, "udp".toList] }

/-- C3: refuted on the code — both protocol entries' compares are appended
into the single expression list of one rule, so they are conjoined: the
compiled rule demands protocol 6 and protocol 17 at once and matches no
packet at all (neither a TCP nor a UDP packet). -/
theorem protocols_conjoined_in_one_rule :
    (buildRuleExpressions tcpUdpRule none =
      [NftExpr.metaL4Proto, NftExpr.cmpU8 6,
       NftExpr.metaL4Proto, NftExpr.cmpU8 17,
       NftExpr.verdict Verdict.accept]) ∧
    (∀ pkt : Packet, evalExprs [] pkt (buildRuleExpressions tcpUdpRule none) [] = none) := by
  refine ⟨by decide, fun pkt => ?_⟩
  have h : buildRuleExpressions tcpUdpRule none =
      [NftExpr.metaL4Proto, NftExpr.cmpU8 6,
       NftExpr.metaL4Proto, NftExpr.cmpU8 17,
       NftExpr.verdict Verdict.accept] := by decide
  rw [h]
  by_cases h6 : pkt.proto = 6 <;> simp [evalExprs, h6]

/-- A manager owning one populated address set for rule name `r`. -/
def mgrWithSetR : Manager :=
  { kernel := { tableExists := true, chainRules := [], natRules := []
                sets := [("ips_r".toList, [[10, 0, 0, 1]])] }
    tablePtr := true
    setsMap := [("r".toList, "ips_r".toList)]
    flushCount := 1 }

/-- C5: half refuted on the code — `UpdateIPs` on an existing set only adds
the new addresses (the flush of existing elements is an unimplemented
TODO), so the stale member survives; the not-found half holds: an unknown
name fails and creates nothing. -/
theorem updateIPs_accumulates_and_notFound :
    ((Manager.updateIPs mgrWithSetR "r".toList ["10.0.0.2".toList]).1.kernel.sets =
      [("ips_r".toList, [[10, 0, 0, 1], [10, 0, 0, 2]])]) ∧
    ((Manager.updateIPs mgrWithSetR "r".toList ["10.0.0.2".toList]).2 = true) ∧
    (Manager.updateIPs mgrWithSetR "zzz".toList ["10.0.0.3".toList] =
      (mgrWithSetR, false)) := by
  refine ⟨by decide, rfl, by decide⟩

/-- An address-bearing rule named `a.b`. -/
def ruleNamedADotB : NftRule :=
  { name := "a.b".toList, action := "allow".toList, priority := 1
    ips := ["1.1.1.1".toList], ports := [], protocols := [] }

/-- An address-bearing rule named `a-b`. -/
def ruleNamedADashB : NftRule :=
  { name := "a-b".toList, action := "allow".toList, priority := 2
    ips := ["2.2.2.2".toList], ports := [], protocols := [] }

/-- C10: the set name is `ips_` plus the rule name with every character
outside `[A-Za-z0-9_]` replaced by an underscore; the mapping is not
injective — the distinct names `a.b` and `a-b` both map to `ips_a_b`, and
adding both rules leaves one shared kernel set holding both rules'
addresses, with both compiled rules looking it up. -/
theorem setNameFor_not_injective_shared_set :
    (∀ name : Str, setNameFor name = "ips_".toList ++ name.map sanitizeChar) ∧
    ("a.b".toList ≠ "a-b".toList) ∧
    (setNameFor "a.b".toList = "ips_a_b".toList) ∧
    (setNameFor "a-b".toList = "ips_a_b".toList) ∧
    ((Manager.addRule allOk
        (Manager.addRule allOk (Manager.setup allOk Manager.new).1
          ruleNamedADotB).1
        ruleNamedADashB).1.kernel.sets =
      [("ips_a_b".toList, [[1, 1, 1, 1], [2, 2, 2, 2]])]) := by
  refine ⟨fun name => rfl, by decide, by decide, by decide, by decide⟩

/-! ## The `sort.Slice` call of `config.Load` (Go 1.21 pdqsort)

`Load` sorts the rule slice with `sort.Slice(cfg.Rules, func(i, j int) bool
{ return cfg.Rules[i].Order < cfg.Rules[j].Order })`.  `sort.Slice` is Go's
pattern-defeating quicksort (`src/sort/zsortfunc.go`), which is not a
stable sort; its behavior on ties therefore matters for the rule-ordering
claim, so the algorithm is transcribed here.  The slice is a list, one
index-swap at a time; loops carry an explicit fuel that is always
sufficient for the actual iteration counts. -/

/-- Element read `data[i]` (indices produced by the algorithm are always in
bounds; the default is never reached on those). -/
def lget {α : Type} [Inhabited α] (l : List α) (i : Nat) : α := l.getD i default

/-- `data.Swap(i, j)`. -/
def lswap {α : Type} (l : List α) (i j : Nat) : List α :=
  match l.get? i, l.get? j with
  | some vi, some vj => (l.set i vj).set j vi
  | _, _ => l

/-- `data.Less(i, j)`. -/
def ltAt {α : Type} [Inhabited α] (lt : α → α → Bool) (l : List α) (i j : Nat) : Bool :=
  lt (lget l i) (lget l j)

/-- The subrange `data[a:b]` as a block. -/
def subSlice {α : Type} (l : List α) (a b : Nat) : List α := (l.take b).drop a

/-- Write a block back over the subrange `data[a:b]`. -/
def splice {α : Type} (l : List α) (a b : Nat) (s : List α) : List α :=
  l.take a ++ s ++ l.drop b

/-- Insert into a sorted prefix at the position where the
`for j := i; j > a && data.Less(j, j-1); j--` bubble of `insertionSort_func`
stops: before the first element strictly greater. -/
def goOrderedInsert {α : Type} (lt : α → α → Bool) (x : α) : List α → List α
  | [] => [x]
  | y :: ys => if lt x y then x :: y :: ys else y :: goOrderedInsert lt x ys

/-- `insertionSort_func` on a whole block, in its standard list rendering:
each element in turn is inserted into the sorted prefix built so far. -/
def goInsertionSort {α : Type} (lt : α → α → Bool) (l : List α) : List α :=
  l.foldl (fun acc x => goOrderedInsert lt x acc) []

/-- `insertionSort_func(data, a, b)`. -/
def insertionSortRange {α : Type} (lt : α → α → Bool) (l : List α) (a b : Nat) :
    List α :=
  splice l a b (goInsertionSort lt (subSlice l a b))

/-- The descent loop of `siftDown_func(data, lo, hi, first)`. -/
def siftDownLoop {α : Type} [Inhabited α] (lt : α → α → Bool) :
    Nat → List α → Nat → Nat → Nat → List α
  | 0, l, _, _, _ => l
  | fuel + 1, l, root, hi, first =>
    let child := 2 * root + 1
    if hi ≤ child then l
    else
      let child :=
        if child + 1 < hi ∧ ltAt lt l (first + child) (first + child + 1) then child + 1
        else child
      if ¬ (ltAt lt l (first + root) (first + child) = true) then l
      else siftDownLoop lt fuel (lswap l (first + root) (first + child)) child hi first

/-- `heapSort_func(data, a, b)`: build the max-heap, then repeatedly move
the maximum to the end of the shrinking range. -/
def heapSortRange {α : Type} [Inhabited α] (lt : α → α → Bool) (l : List α)
    (a b : Nat) : List α :=
  let first := a
  let hi := b - a
  let l := (List.range ((hi - 1) / 2 + 1)).reverse.foldl
    (fun acc i => siftDownLoop lt (hi + 1) acc i hi first) l
  (List.range hi).reverse.foldl
    (fun acc i => siftDownLoop lt (hi + 1) (lswap acc first (first + i)) 0 i first) l

/-- `bits.Len` on a natural number. -/
def bitsLen (n : Nat) : Nat := if n = 0 then 0 else Nat.log2 n + 1

/-- `nextPowerOfTwo(length) = 1 << bits.Len(uint(length))`. -/
def nextPowerOfTwo (length : Nat) : Nat := 2 ^ bitsLen length

/-- One step of the `xorshift` generator of `sort` (64-bit). -/
def xorshiftNext (r : Nat) : Nat :=
  let r := (r ^^^ (r <<< 13)) % 2 ^ 64
  let r := (r ^^^ (r >>> 7)) % 2 ^ 64
  (r ^^^ (r <<< 17)) % 2 ^ 64

/-- `breakPatterns_func`: swap three positions around the midpoint with
pseudo-random partners (deterministic xorshift seeded by the length). -/
def breakPatternsRange {α : Type} (l : List α) (a b : Nat) : List α :=
  let length := b - a
  if 8 ≤ length then
    let modulus := nextPowerOfTwo length
    let idx := a + (length / 4) * 2 - 1
    let r1 := xorshiftNext length
    let r2 := xorshiftNext r1
    let r3 := xorshiftNext r2
    let pick := fun (r : Nat) =>
      let other := r % modulus
      if length ≤ other then other - length else other
    let l := lswap l (idx - 1) (a + pick r1)
    let l := lswap l idx (a + pick r2)
    lswap l (idx + 1) (a + pick r3)
  else l

/-- `order2_func`: order two indices by their elements, counting swaps. -/
def order2 {α : Type} [Inhabited α] (lt : α → α → Bool) (l : List α)
    (a b swaps : Nat) : Nat × Nat × Nat :=
  if ltAt lt l b a then (b, a, swaps + 1) else (a, b, swaps)

/-- `median_func`: index of the median of three elements, counting swaps. -/
def medianIdx {α : Type} [Inhabited α] (lt : α → α → Bool) (l : List α)
    (a b c swaps : Nat) : Nat × Nat :=
  let (a1, b1, s1) := order2 lt l a b swaps
  let (b2, _, s2) := order2 lt l b1 c s1
  let (_, b3, s3) := order2 lt l a1 b2 s2
  (b3, s3)

/-- `medianAdjacent_func`: median of an index and its two neighbors. -/
def medianAdjacentIdx {α : Type} [Inhabited α] (lt : α → α → Bool) (l : List α)
    (a swaps : Nat) : Nat × Nat :=
  medianIdx lt l (a - 1) a (a + 1) swaps

/-- `choosePivot_func`: median (of medians, for length at least 50) of three
positions; the swap count classifies the range as increasing (hint 1),
decreasing (hint 2) or unknown (hint 0). -/
def choosePivot {α : Type} [Inhabited α] (lt : α → α → Bool) (l : List α)
    (a b : Nat) : Nat × Nat :=
  let len := b - a
  let i := a + len / 4 * 1
  let j := a + len / 4 * 2
  let k := a + len / 4 * 3
  let (j2, swaps2) :=
    if 8 ≤ len then
      let (i', j', k', s0) :=
        if 50 ≤ len then
          let (i1, s1) := medianAdjacentIdx lt l i 0
          let (j1, s2) := medianAdjacentIdx lt l j s1
          let (k1, s3) := medianAdjacentIdx lt l k s2
          (i1, j1, k1, s3)
        else (i, j, k, 0)
      medianIdx lt l i' j' k' s0
    else (j, 0)
  if swaps2 = 0 then (j2, 1) else if swaps2 = 12 then (j2, 2) else (j2, 0)

/-- `reverseRange_func(data, a, b)` (pairwise swaps = reversing the block). -/
def reverseRangeGo {α : Type} (l : List α) (a b : Nat) : List α :=
  splice l a b (subSlice l a b).reverse

/-- The `for i < b && !data.Less(i, i-1)` advance of
`partialInsertionSort_func`. -/
def advanceLoop {α : Type} [Inhabited α] (lt : α → α → Bool) :
    Nat → List α → Nat → Nat → Nat
  | 0, _, i, _ => i
  | fuel + 1, l, i, b =>
    if i < b ∧ ¬ (ltAt lt l i (i - 1) = true) then advanceLoop lt fuel l (i + 1) b
    else i

/-- The leftward shift loop of `partialInsertionSort_func`. -/
def bubbleLeft {α : Type} [Inhabited α] (lt : α → α → Bool) :
    Nat → List α → Nat → List α
  | 0, l, _ => l
  | fuel + 1, l, j =>
    if 1 ≤ j ∧ ltAt lt l j (j - 1) then bubbleLeft lt fuel (lswap l j (j - 1)) (j - 1)
    else l

/-- The rightward shift loop of `partialInsertionSort_func`. -/
def bubbleRight {α : Type} [Inhabited α] (lt : α → α → Bool) :
    Nat → List α → Nat → Nat → List α
  | 0, l, _, _ => l
  | fuel + 1, l, j, b =>
    if j < b ∧ ltAt lt l j (j - 1) then bubbleRight lt fuel (lswap l j (j - 1)) (j + 1) b
    else l

/-- The bounded-steps loop of `partialInsertionSort_func` (maxSteps = 5,
shortestShifting = 50). -/
def partialInsertionSortLoop {α : Type} [Inhabited α] (lt : α → α → Bool)
    (a b : Nat) : Nat → List α → Nat → List α × Bool
  | 0, l, _ => (l, false)
  | steps + 1, l, i =>
    let i := advanceLoop lt (b + 1) l i b
    if i = b then (l, true)
    else if b - a < 50 then (l, false)
    else
      let l := lswap l i (i - 1)
      let l := if 2 ≤ i - a then bubbleLeft lt (i + 1) l (i - 1) else l
      let l := if 2 ≤ b - i then bubbleRight lt (b + 1) l (i + 1) b else l
      partialInsertionSortLoop lt a b steps l i

/-- `partialInsertionSort_func(data, a, b)`. -/
def partialInsertionSortGo {α : Type} [Inhabited α] (lt : α → α → Bool)
    (l : List α) (a b : Nat) : List α × Bool :=
  partialInsertionSortLoop lt a b 5 l (a + 1)

/-- The `for i <= j && data.Less(i, a)` scan of `partition_func`. -/
def scanFwd {α : Type} [Inhabited α] (lt : α → α → Bool) :
    Nat → List α → Nat → Nat → Nat → Nat
  | 0, _, i, _, _ => i
  | fuel + 1, l, i, j, a =>
    if i ≤ j ∧ ltAt lt l i a then scanFwd lt fuel l (i + 1) j a else i

/-- The `for i <= j && !data.Less(j, a)` scan of `partition_func`. -/
def scanBack {α : Type} [Inhabited α] (lt : α → α → Bool) :
    Nat → List α → Nat → Nat → Nat → Nat
  | 0, _, _, j, _ => j
  | fuel + 1, l, i, j, a =>
    if i ≤ j ∧ ¬ (ltAt lt l j a = true) then scanBack lt fuel l i (j - 1) a else j

/-- The swap loop of `partition_func` after the first crossing check. -/
def partitionLoop {α : Type} [Inhabited α] (lt : α → α → Bool) (a : Nat) :
    Nat → List α → Nat → Nat → List α × Nat
  | 0, l, _, j => (l, j)
  | fuel + 1, l, i, j =>
    let i := scanFwd lt fuel.succ l i j a
    let j := scanBack lt fuel.succ l i j a
    if j < i then (l, j)
    else partitionLoop lt a fuel (lswap l i j) (i + 1) (j - 1)

/-- `partition_func(data, a, b, pivot)`: Hoare partition against the pivot
moved to `a`; returns the new state, the pivot's final position, and
whether the range was already partitioned. -/
def partitionGo {α : Type} [Inhabited α] (lt : α → α → Bool) (l : List α)
    (a b pivot : Nat) : List α × Nat × Bool :=
  let l := lswap l a pivot
  let i := scanFwd lt (b + 2) l (a + 1) (b - 1) a
  let j := scanBack lt (b + 2) l i (b - 1) a
  if j < i then (lswap l j a, j, true)
  else
    let (l2, j2) := partitionLoop lt a (b + 2) (lswap l i j) (i + 1) (j - 1)
    (lswap l2 j2 a, j2, false)

/-- The `for i <= j && !data.Less(a, i)` scan of `partitionEqual_func`. -/
def scanFwdEq {α : Type} [Inhabited α] (lt : α → α → Bool) :
    Nat → List α → Nat → Nat → Nat → Nat
  | 0, _, i, _, _ => i
  | fuel + 1, l, i, j, a =>
    if i ≤ j ∧ ¬ (ltAt lt l a i = true) then scanFwdEq lt fuel l (i + 1) j a else i

/-- The `for i <= j && data.Less(a, j)` scan of `partitionEqual_func`. -/
def scanBackEq {α : Type} [Inhabited α] (lt : α → α → Bool) :
    Nat → List α → Nat → Nat → Nat → Nat
  | 0, _, _, j, _ => j
  | fuel + 1, l, i, j, a =>
    if i ≤ j ∧ ltAt lt l a j then scanBackEq lt fuel l i (j - 1) a else j

/-- The swap loop of `partitionEqual_func`. -/
def partitionEqualLoop {α : Type} [Inhabited α] (lt : α → α → Bool) (a : Nat) :
    Nat → List α → Nat → Nat → List α × Nat
  | 0, l, i, _ => (l, i)
  | fuel + 1, l, i, j =>
    let i := scanFwdEq lt fuel.succ l i j a
    let j := scanBackEq lt fuel.succ l i j a
    if j < i then (l, i)
    else partitionEqualLoop lt a fuel (lswap l i j) (i + 1) (j - 1)

/-- `partitionEqual_func(data, a, b, pivot)`: move elements equal to the
pivot to the front, returning the first index past them. -/
def partitionEqualGo {α : Type} [Inhabited α] (lt : α → α → Bool) (l : List α)
    (a b pivot : Nat) : List α × Nat :=
  let l := lswap l a pivot
  partitionEqualLoop lt a (b + 2) l (a + 1) (b - 1)

/-- The main loop of `pdqsort_func(data, a, b, limit)`; recursive calls
start with fresh `wasBalanced`/`wasPartitioned` flags while the loop
continuation keeps the updated ones, as in the source.  The fuel bounds
loop iterations plus recursion depth and is chosen large enough at the
entry point. -/
def pdqsortLoop {α : Type} [Inhabited α] (lt : α → α → Bool) :
    Nat → List α → Nat → Nat → Nat → Bool → Bool → List α
  | 0, l, _, _, _, _, _ => l
  | fuel + 1, l, a, b, limit, wasBalanced, wasPartitioned =>
    let length := b - a
    if length ≤ 12 then insertionSortRange lt l a b
    else if limit = 0 then heapSortRange lt l a b
    else
      let (l, limit) :=
        if ¬ (wasBalanced = true) then (breakPatternsRange l a b, limit - 1)
        else (l, limit)
      let (pivot, hint) := choosePivot lt l a b
      let (l, pivot, hint) :=
        if hint = 2 then (reverseRangeGo l a b, (b - 1) - (pivot - a), 1)
        else (l, pivot, hint)
      let ps :=
        if wasBalanced ∧ wasPartitioned ∧ hint = 1 then partialInsertionSortGo lt l a b
        else (l, false)
      if ps.2 then ps.1
      else
        let l := ps.1
        if 0 < a ∧ ¬ (ltAt lt l (a - 1) pivot = true) then
          let (l, mid) := partitionEqualGo lt l a b pivot
          pdqsortLoop lt fuel l mid b limit wasBalanced wasPartitioned
        else
          let (l, mid, alreadyPartitioned) := partitionGo lt l a b pivot
          let leftLen := mid - a
          let rightLen := b - mid
          let balanceThreshold := length / 8
          let nowBalanced := decide (balanceThreshold ≤ min leftLen rightLen)
          if leftLen < rightLen then
            let l := pdqsortLoop lt fuel l a mid limit true true
            pdqsortLoop lt fuel l (mid + 1) b limit nowBalanced alreadyPartitioned
          else
            let l := pdqsortLoop lt fuel l (mid + 1) b limit true true
            pdqsortLoop lt fuel l a mid limit nowBalanced alreadyPartitioned

/-- `sort.Slice`: pdqsort over the whole slice with depth limit
`bits.Len(length)`. -/
def sortSliceGo {α : Type} [Inhabited α] (lt : α → α → Bool) (l : List α) :
    List α :=
  pdqsortLoop lt (l.length * l.length + 64) l 0 l.length (bitsLen l.length) true true

/-! ## Configuration (`pkg/config/config.go`) -/

/-- `config.Egress`: the four criterion lists. -/
structure Egress where
  protocols : List Str
  domains : List Str
  ips : List Str
  ports : List Str
  deriving DecidableEq, Repr, Inhabited

/-- `config.Rule` (actions and protocols are Go string types). -/
structure CfgRule where
  name : Str
  action : Str
  order : Int
  egress : Egress
  deriving DecidableEq, Repr, Inhabited

/-- `config.Config`. -/
structure Config where
  version : Str
  rules : List CfgRule
  deriving DecidableEq, Repr, Inhabited

/-- The comparator `Load` hands to `sort.Slice`:
`cfg.Rules[i].Order < cfg.Rules[j].Order`. -/
def ruleLt (x y : CfgRule) : Bool := x.order < y.order

/-- The rule sort performed by `Load`. -/
def sortRules (l : List CfgRule) : List CfgRule := sortSliceGo ruleLt l

/-- `Rule.Validate`: non-empty name, allow/deny action, known protocols. -/
def CfgRule.validate (r : CfgRule) : Bool :=
  if r.name = [] then false
  else if ¬ (r.action = "allow".toList ∨ r.action = "deny".toList) then false
  else r.egress.protocols.all
    (fun p => p = "tcp".toList ∨ p = "udp".toList ∨ p = "icmp".toList)

/-- `Config.Validate`: non-empty version, at least one rule, every rule
valid. -/
def Config.validate (c : Config) : Bool :=
  if c.version = [] then false
  else if c.rules = [] then false
  else c.rules.all CfgRule.validate

/-- `config.Load`, with the file read and parse abstracted into its result
(`none` = read/parse failure): validate, then sort the rules by order. -/
def configLoad (parsed : Option Config) : Option Config :=
  match parsed with
  | none => none
  | some cfg =>
    if cfg.validate then some { cfg with rules := sortRules cfg.rules }
    else none

/-! ## The filter orchestrator (`pkg/filter/filter.go`)

`applyRule` consumes `f.dns.Resolve` results; the resolver is abstracted
here into a resolution oracle `resolve : Str → Option (List Str)` (`none`
= resolution error), which is exactly the interface `applyRule` observes.
The cache behavior behind that interface is modelled separately below. -/

/-- `isWildcard` from `filter.go`: length above two and leading `*.`. -/
def isWildcard (domain : Str) : Bool :=
  match domain with
  | c1 :: c2 :: _ :: _ => c1 = '*' ∧ c2 = '.'
  | _ => false

/-- The `nftables.Rule` literal `applyRule` submits (`protocolsToStrings`
is the identity in this model since protocols are already strings). -/
def nftRuleFor (r : CfgRule) (ips : List Str) : NftRule :=
  { name := r.name, action := r.action, priority := r.order
    ips := ips, ports := r.egress.ports, protocols := r.egress.protocols }

/-- The domain loop of `applyRule`: wildcard domains are logged and
skipped, resolution failures are logged and skipped, each resolved domain
yields one `AddRule` call whose failure aborts the rule.  Returns the
manager, the trace of issued `AddRule` calls, and success. -/
def domainLoop (env : KernelEnv) (resolve : Str → Option (List Str))
    (r : CfgRule) : Manager → List NftRule → List Str →
    Manager × List NftRule × Bool
  | m, trace, [] => (m, trace, true)
  | m, trace, d :: rest =>
    if isWildcard d then domainLoop env resolve r m trace rest
    else
      match resolve d with
      | none => domainLoop env resolve r m trace rest
      | some ips =>
        let call := nftRuleFor r ips
        let (m', ok) := Manager.addRule env m call
        if ok then domainLoop env resolve r m' (trace ++ [call]) rest
        else (m', trace ++ [call], false)

/-- `Filter.applyRule`: the three independent branches of the source —
domain loop when domains are present, one literal-address `AddRule` when
IPs are present, one address-less `AddRule` when protocols are present and
both domains and IPs are absent. -/
def applyRuleGo (env : KernelEnv) (resolve : Str → Option (List Str))
    (m : Manager) (r : CfgRule) : Manager × List NftRule × Bool :=
  let (m1, t1, ok1) :=
    if r.egress.domains ≠ [] then domainLoop env resolve r m [] r.egress.domains
    else (m, [], true)
  if ¬ (ok1 = true) then (m1, t1, false)
  else
    let (m2, t2, ok2) :=
      if r.egress.ips ≠ [] then
        let call := nftRuleFor r r.egress.ips
        let (m', ok) := Manager.addRule env m1 call
        (m', t1 ++ [call], ok)
      else (m1, t1, true)
    if ¬ (ok2 = true) then (m2, t2, false)
    else
      if r.egress.protocols ≠ [] ∧ r.egress.ips = [] ∧ r.egress.domains = [] then
        let call := nftRuleFor r []
        let (m', ok) := Manager.addRule env m2 call
        (m', t2 ++ [call], ok)
      else (m2, t2, true)

/-- `Filter.applyRules`: apply each configured rule in list order,
aborting on the first rule failure. -/
def applyRulesGo (env : KernelEnv) (resolve : Str → Option (List Str)) :
    Manager → List CfgRule → Manager × List NftRule × Bool
  | m, [] => (m, [], true)
  | m, r :: rest =>
    let (m1, t1, ok1) := applyRuleGo env resolve m r
    if ok1 then
      let (m2, t2, ok2) := applyRulesGo env resolve m1 rest
      (m2, t1 ++ t2, ok2)
    else (m1, t1, false)

/-- The orchestrator's owned state: current config and the manager. -/
structure FilterState where
  config : Config
  nft : Manager
  deriving DecidableEq, Repr

/-- `Filter.reloadConfig`: reread and validate the config (its parse result
passed as an oracle); on any failure before kernel work, keep everything;
otherwise `Cleanup`, `Setup`, swap the config in, and re-apply the rules,
propagating failures after the point they occur. -/
def reloadConfigGo (env : KernelEnv) (resolve : Str → Option (List Str))
    (parsed : Option Config) (f : FilterState) : FilterState × Bool :=
  match configLoad parsed with
  | none => (f, false)
  | some newConfig =>
    if ¬ (newConfig.validate = true) then (f, false)
    else
      let (m1, ok1) := Manager.cleanup env f.nft
      if ¬ (ok1 = true) then ({ f with nft := m1 }, false)
      else
        let (m2, ok2) := Manager.setup env m1
        if ¬ (ok2 = true) then ({ f with nft := m2 }, false)
        else
          let (m3, _, ok3) := applyRulesGo env resolve m2 newConfig.rules
          ({ config := newConfig, nft := m3 }, ok3)

/-! ## The DNS resolver cache (`pkg/dns/resolver.go`)

The upstream query pipeline (`r.lookup`: configured servers first, host
resolver fallback) is abstracted into a lookup oracle; `Resolve`'s cache
logic around it is modelled with explicit time in seconds. -/

/-- A cache entry: addresses and expiry instant. -/
structure CacheEntry where
  ips : List Str
  expiresAt : Nat
  deriving DecidableEq, Repr

/-- The resolver state: the domain cache. -/
structure Resolver where
  cache : List (Str × CacheEntry)
  deriving DecidableEq, Repr

/-- `dnsCacheTTL = 5 * time.Minute`, in seconds. -/
def dnsCacheTTL : Nat := 300

/-- Result of one `Resolve` call: the returned addresses (or an error),
the resolver state afterwards, and whether an upstream query was issued. -/
structure ResolveResult where
  res : Option (List Str)
  state : Resolver
  queried : Bool
  deriving DecidableEq, Repr

/-- `Resolver.Resolve`: an unexpired cache entry is returned with no
query; otherwise wildcard domains fail without a query; otherwise the
upstream lookup runs, a success being cached with a fresh fixed TTL. -/
def Resolver.resolve (lookup : Str → Option (List Str)) (now : Nat)
    (r : Resolver) (domain : Str) : ResolveResult :=
  let hit : Option (List Str) :=
    match alookup r.cache domain with
    | some entry => if now < entry.expiresAt then some entry.ips else none
    | none => none
  match hit with
  | some ips => ⟨some ips, r, false⟩
  | none =>
    if goHasPrefix domain ['*', '.'] then ⟨none, r, false⟩
    else
      match lookup domain with
      | none => ⟨none, r, true⟩
      | some ips =>
        ⟨some ips, ⟨aupdate r.cache domain ⟨ips, now + dnsCacheTTL⟩⟩, true⟩

/-! ## Reload atomicity (claim C2) -/

/-- The previously applied rule: a literal-address allow rule. -/
def priorRuleC2 : CfgRule :=
  ⟨"old-allow".toList, "allow".toList, 10,
    ⟨[], [], ["8.8.8.8".toList], []⟩⟩

/-- Orchestrator state after a successful start with `priorRuleC2`. -/
def priorFilterC2 : FilterState :=
  { config := ⟨"1".toList, [priorRuleC2]⟩
    nft := (applyRuleGo allOk (fun _ => none)
      (Manager.setup allOk Manager.new).1 priorRuleC2).1 }

/-- A valid replacement config with two literal-address rules. -/
def newCfgC2 : Config :=
  ⟨"2".toList,
    [⟨"n1".toList, "allow".toList, 1, ⟨[], [], ["1.1.1.1".toList], []⟩⟩,
     ⟨"n2".toList, "allow".toList, 2, ⟨[], [], ["2.2.2.2".toList], []⟩⟩]⟩

/-- A kernel that rejects the sixth commit — the `AddRule` of the second
new rule during the reload below. -/
def envFailSixth : KernelEnv := ⟨fun n => decide (n ≠ 5)⟩

/-- C2: refuted on the code — when a rule application fails mid-reload,
the old kernel state is already torn down: the reload reports failure but
leaves the freshly built, partially populated state (only the first new
rule present), not the previous one. -/
theorem reload_not_all_or_nothing :
    ((reloadConfigGo envFailSixth (fun _ => none) (some newCfgC2) priorFilterC2).2
        = false) ∧
    ((reloadConfigGo envFailSixth (fun _ => none) (some newCfgC2)
        priorFilterC2).1.nft.kernel ≠ priorFilterC2.nft.kernel) ∧
    ((reloadConfigGo envFailSixth (fun _ => none) (some newCfgC2)
        priorFilterC2).1.nft.kernel.chainRules =
      [⟨[NftExpr.verdict Verdict.drop]⟩,
       ⟨[NftExpr.payloadDstIP, NftExpr.lookupSet "ips_n1".toList,
         NftExpr.verdict Verdict.accept]⟩]) := by
  refine ⟨by decide, by decide, by decide⟩

/-- C2 amended: a reload whose failure happens during load or validation —
before any kernel work — leaves the whole state untouched, and an empty
version is such a validation failure. -/
theorem reload_keeps_state_on_load_failure :
    (∀ (env : KernelEnv) (resolve : Str → Option (List Str))
        (parsed : Option Config) (f : FilterState),
      configLoad parsed = none →
      reloadConfigGo env resolve parsed f = (f, false)) ∧
    (∀ cfg : Config, cfg.version = [] → configLoad (some cfg) = none) := by
  constructor
  · intro env resolve parsed f h
    rw [reloadConfigGo, h]
  · intro cfg h
    rw [configLoad]
    have : cfg.validate = false := by
      rw [Config.validate, h]
      simp
    rw [this]
    simp

/-- Witness for the amended C2 theorem at a concrete failing reload. -/
theorem reload_keeps_state_on_load_failure_witness :
    reloadConfigGo allOk (fun _ => none)
        (some ⟨[], [priorRuleC2]⟩) priorFilterC2 = (priorFilterC2, false) ∧
      configLoad (some ⟨[], [priorRuleC2]⟩) = none := by
  have h := reload_keeps_state_on_load_failure
  have hload : configLoad (some (⟨[], [priorRuleC2]⟩ : Config)) = none :=
    h.2 ⟨[], [priorRuleC2]⟩ rfl
  exact ⟨h.1 allOk (fun _ => none) (some ⟨[], [priorRuleC2]⟩) priorFilterC2 hload, hload⟩

/-! ## Resolver cache behavior (claim C9) -/

/-- C9: a `Resolve` within an entry's TTL returns the cached addresses,
issues no query and leaves the cache unchanged; a `Resolve` on an expired
entry of a non-wildcard domain issues a query and caches a successful
result with a fresh fixed TTL of 300 seconds. -/
theorem resolve_cache_within_and_after_ttl :
    (∀ (lookup : Str → Option (List Str)) (now : Nat) (r : Resolver)
        (domain : Str) (entry : CacheEntry),
      alookup r.cache domain = some entry → now < entry.expiresAt →
      Resolver.resolve lookup now r domain = ⟨some entry.ips, r, false⟩) ∧
    (∀ (lookup : Str → Option (List Str)) (now : Nat) (r : Resolver)
        (domain : Str) (entry : CacheEntry) (ips : List Str),
      alookup r.cache domain = some entry → ¬ now < entry.expiresAt →
      goHasPrefix domain ['*', '.'] = false →
      lookup domain = some ips →
      Resolver.resolve lookup now r domain =
        ⟨some ips, ⟨aupdate r.cache domain ⟨ips, now + dnsCacheTTL⟩⟩, true⟩) := by
  constructor
  · intro lookup now r domain entry hcache httl
    rw [Resolver.resolve, hcache]
    simp [httl]
  · intro lookup now r domain entry ips hcache httl hwild hlookup
    rw [Resolver.resolve, hcache]
    simp [httl, hwild, hlookup]

/-- Witness for the resolver cache theorem at a concrete cache state. -/
theorem resolve_cache_within_and_after_ttl_witness :
    (Resolver.resolve (fun _ => some ["9.9.9.9".toList]) 100
        ⟨[("x.com".toList, ⟨["1.2.3.4".toList], 200⟩)]⟩ "x.com".toList =
      ⟨some ["1.2.3.4".toList],
        ⟨[("x.com".toList, ⟨["1.2.3.4".toList], 200⟩)]⟩, false⟩) ∧
    (Resolver.resolve (fun _ => some ["9.9.9.9".toList]) 200
        ⟨[("x.com".toList, ⟨["1.2.3.4".toList], 200⟩)]⟩ "x.com".toList =
      ⟨some ["9.9.9.9".toList],
        ⟨[("x.com".toList, ⟨["9.9.9.9".toList], 500⟩)]⟩, true⟩) := by
  constructor
  · exact resolve_cache_within_and_after_ttl.1
      (fun _ => some ["9.9.9.9".toList]) 100
      ⟨[("x.com".toList, ⟨["1.2.3.4".toList], 200⟩)]⟩ "x.com".toList
      ⟨["1.2.3.4".toList], 200⟩ (by decide) (by decide)
  · have h := resolve_cache_within_and_after_ttl.2
      (fun _ => some ["9.9.9.9".toList]) 200
      ⟨[("x.com".toList, ⟨["1.2.3.4".toList], 200⟩)]⟩ "x.com".toList
      ⟨["1.2.3.4".toList], 200⟩ ["9.9.9.9".toList]
      (by decide) (by decide) (by decide) rfl
    rw [h]
    decide

/-! ## Rule classification in applyRule (claim C7) -/

/-- A rule with only ports populated (no protocols, domains or IPs). -/
def portsOnlyRule : CfgRule :=
  ⟨"ports-only".toList, "allow".toList, 7, ⟨[], [], [], ["443".toList]⟩⟩

/-- A rule with both a domain and a literal address. -/
def domainsAndIPsRule : CfgRule :=
  ⟨"mixed".toList, "allow".toList, 8,
    ⟨[], ["a.com".toList], ["9.9.9.9".toList], []⟩⟩

/-- A resolution oracle knowing only `a.com`. -/
def resolveOnlyACom : Str → Option (List Str) :=
  fun d => if d = "a.com".toList then some ["1.2.3.4".toList] else none

/-- C7: refuted on the code — a ports-only rule (no protocols) produces no
`AddRule` call at all, and a rule with both domains and IPs emits the
literal-address `AddRule` in addition to the domain one. -/
theorem applyRule_classification_counterexample :
    ((applyRuleGo allOk (fun _ => none) (Manager.setup allOk Manager.new).1
        portsOnlyRule).2 = ([], true)) ∧
    ((applyRuleGo allOk resolveOnlyACom (Manager.setup allOk Manager.new).1
        domainsAndIPsRule).2.1 =
      [nftRuleFor domainsAndIPsRule ["1.2.3.4".toList],
       nftRuleFor domainsAndIPsRule ["9.9.9.9".toList]]) := by
  refine ⟨by decide, by decide⟩

/-! ## General characterization of applyRule's branches -/

/-- The `AddRule` calls the domain loop issues: one per non-wildcard,
resolvable domain, carrying that domain's own resolved addresses. -/
def domainCalls (resolve : Str → Option (List Str)) (r : CfgRule) : List NftRule :=
  r.egress.domains.filterMap (fun d =>
    if isWildcard d then none
    else (resolve d).map (fun ips => nftRuleFor r ips))

lemma addRule_allOk_snd (m : Manager) (r : NftRule) :
    (Manager.addRule allOk m r).2 = true := rfl

lemma domainLoop_allOk (resolve : Str → Option (List Str)) (r : CfgRule)
    (ds : List Str) :
    ∀ (m : Manager) (trace : List NftRule),
      (domainLoop allOk resolve r m trace ds).2.1 =
          trace ++ ds.filterMap (fun d =>
            if isWildcard d then none
            else (resolve d).map (fun ips => nftRuleFor r ips)) ∧
        (domainLoop allOk resolve r m trace ds).2.2 = true := by
  induction ds with
  | nil => intro m trace; simp [domainLoop]
  | cons d rest ih =>
    intro m trace
    by_cases hw : isWildcard d = true
    · have IH := ih m trace
      simp [domainLoop, hw, IH.1, IH.2]
    · rw [Bool.not_eq_true] at hw
      cases hres : resolve d with
      | none =>
        have IH := ih m trace
        simp [domainLoop, hw, hres, IH.1, IH.2]
      | some ips =>
        rcases haddr : Manager.addRule allOk m (nftRuleFor r ips) with ⟨m', ok⟩
        have hok : ok = true := by
          have h2 := addRule_allOk_snd m (nftRuleFor r ips)
          rw [haddr] at h2
          exact h2
        subst hok
        have IH := ih m' (trace ++ [nftRuleFor r ips])
        simp [domainLoop, hw, hres, haddr, IH.1, IH.2]

/-- C7 amended: the three branches of `applyRule` are independent — the
domain loop issues one call per non-wildcard resolvable domain, the
literal-address call is issued whenever the IP list is non-empty (domains
present or not), and the address-less call is issued exactly when
protocols are present while both domains and IPs are empty; a rule with
only ports therefore produces no call. -/
theorem applyRule_branches_independent :
    ∀ (resolve : Str → Option (List Str)) (m : Manager) (r : CfgRule),
      (applyRuleGo allOk resolve m r).2.1 =
          domainCalls resolve r ++
          (if r.egress.ips ≠ [] then [nftRuleFor r r.egress.ips] else []) ++
          (if r.egress.protocols ≠ [] ∧ r.egress.ips = [] ∧ r.egress.domains = []
            then [nftRuleFor r []] else []) ∧
        (applyRuleGo allOk resolve m r).2.2 = true := by
  intro resolve m r
  have hdl := domainLoop_allOk resolve r r.egress.domains m []
  rcases hdla : domainLoop allOk resolve r m [] r.egress.domains with ⟨m1, t1, ok1⟩
  rw [hdla] at hdl
  simp only at hdl
  have ht1 : t1 = domainCalls resolve r := by
    rw [hdl.1]
    simp [domainCalls]
  have hok1 : ok1 = true := hdl.2
  subst ht1 hok1
  rcases haddr2 : Manager.addRule allOk m1 (nftRuleFor r r.egress.ips) with ⟨m2, ok2⟩
  have hok2 : ok2 = true := by
    have h2 := addRule_allOk_snd m1 (nftRuleFor r r.egress.ips)
    rw [haddr2] at h2
    exact h2
  subst hok2
  by_cases hdom : r.egress.domains = []
  · have hdc : domainCalls resolve r = [] := by simp [domainCalls, hdom]
    by_cases hips : r.egress.ips = []
    · by_cases hpr : r.egress.protocols = []
      · simp [applyRuleGo, hdom, hips, hpr, hdc]
      · rcases haddr3 : Manager.addRule allOk m (nftRuleFor r []) with ⟨m3, ok3⟩
        have hok3 : ok3 = true := by
          have h3 := addRule_allOk_snd m (nftRuleFor r [])
          rw [haddr3] at h3
          exact h3
        subst hok3
        simp [applyRuleGo, hdom, hips, hpr, hdc, haddr3]
    · simp [applyRuleGo, hdom, hips, hdc, addRule_allOk_snd]
  · by_cases hips : r.egress.ips = []
    · simp [applyRuleGo, hdom, hips, hdla]
    · simp [applyRuleGo, hdom, hips, hdla, haddr2, addRule_allOk_snd]

/-! ## Per-domain sub-rules and their shared address set (claim C4) -/

/-- A rule naming two domains and nothing else. -/
def twoDomainRule : CfgRule :=
  ⟨"r".toList, "allow".toList, 5,
    ⟨[], ["a.com".toList, "b.com".toList], [], []⟩⟩

/-- Resolution results for the two domains of `twoDomainRule`. -/
def resolveAB : Str → Option (List Str) :=
  fun d =>
    if d = "a.com".toList then some ["1.1.1.1".toList]
    else if d = "b.com".toList then some ["2.2.2.2".toList] else none

/-- C4: refuted on the code — the two per-domain `AddRule` calls are
issued with their own addresses, but both sub-rules are compiled against
the single set `ips_r` keyed by the rule name, and that set ends up
holding the union of both domains' addresses, so the sub-rule compiled
for `a.com` matches `b.com`'s address as well. -/
theorem domain_subrules_share_one_set :
    ((applyRuleGo allOk resolveAB (Manager.setup allOk Manager.new).1
        twoDomainRule).2.1 =
      [nftRuleFor twoDomainRule ["1.1.1.1".toList],
       nftRuleFor twoDomainRule ["2.2.2.2".toList]]) ∧
    ((applyRuleGo allOk resolveAB (Manager.setup allOk Manager.new).1
        twoDomainRule).1.kernel.sets =
      [("ips_r".toList, [[1, 1, 1, 1], [2, 2, 2, 2]])]) ∧
    ((applyRuleGo allOk resolveAB (Manager.setup allOk Manager.new).1
        twoDomainRule).1.kernel.chainRules =
      [⟨[NftExpr.verdict Verdict.drop]⟩,
       ⟨[NftExpr.payloadDstIP, NftExpr.lookupSet "ips_r".toList,
         NftExpr.verdict Verdict.accept]⟩,
       ⟨[NftExpr.payloadDstIP, NftExpr.lookupSet "ips_r".toList,
         NftExpr.verdict Verdict.accept]⟩]) := by
  refine ⟨by decide, by decide, by decide⟩

lemma alookup_setAdd_self (sets : List (Str × List (List Nat))) (sn : Str)
    (elems : List (List Nat)) :
    alookup (setAdd sets sn elems) sn = (alookup sets sn).map (· ++ elems) := by
  induction sets with
  | nil => simp [setAdd, alookup]
  | cons p rest ih =>
    obtain ⟨k, v⟩ := p
    by_cases h : k = sn
    · subst h
      simp only [setAdd, List.map_cons, if_true]
      rw [alookup, if_pos rfl, alookup, if_pos rfl]
      rfl
    · simp only [setAdd, List.map_cons]
      rw [if_neg h, alookup, if_neg h, alookup, if_neg h]
      exact ih

lemma alookup_append_of_none {β : Type} (sets : List (Str × β)) (sn : Str)
    (v : β) (h : alookup sets sn = none) :
    alookup (sets ++ [(sn, v)]) sn = some v := by
  induction sets with
  | nil => simp [alookup]
  | cons p rest ih =>
    by_cases hp : p.1 = sn
    · rw [alookup, if_pos hp] at h
      exact absurd h (by simp)
    · rw [alookup, if_neg hp] at h
      rw [List.cons_append, alookup, if_neg hp]
      exact ih h

lemma addRule_allOk_sets (m : Manager) (c : NftRule) (h : c.ips ≠ []) :
    alookup (Manager.addRule allOk m c).1.kernel.sets (setNameFor c.name) =
      some ((alookup m.kernel.sets (setNameFor c.name)).getD [] ++
        parseSetElems c.ips) := by
  rw [Manager.addRule]
  simp only [h, if_neg, if_false]
  cases hlk : alookup m.kernel.sets (setNameFor c.name) with
  | some v =>
    simp [allOk, h, hlk, alookup_setAdd_self]
  | none =>
    have hnew := alookup_append_of_none m.kernel.sets (setNameFor c.name)
      ([] : List (List Nat)) hlk
    simp [allOk, h, hlk, alookup_setAdd_self, hnew]

lemma domainLoop_allOk_sets (resolve : Str → Option (List Str)) (r : CfgRule)
    (ds : List Str)
    (hall : ∀ d ∈ ds, isWildcard d = false ∧
      ∃ ips, resolve d = some ips ∧ ips ≠ []) (hne : ds ≠ []) :
    ∀ (m : Manager) (trace : List NftRule),
      alookup (domainLoop allOk resolve r m trace ds).1.kernel.sets
          (setNameFor r.name) =
        some ((alookup m.kernel.sets (setNameFor r.name)).getD [] ++
          (ds.map (fun d => parseSetElems ((resolve d).getD []))).flatten) := by
  induction ds with
  | nil => exact absurd rfl hne
  | cons d rest ih =>
    intro m trace
    obtain ⟨hw, ips, hres, hips⟩ := hall d (by simp)
    rcases haddr : Manager.addRule allOk m (nftRuleFor r ips) with ⟨m', ok⟩
    have hok : ok = true := by
      have h2 := addRule_allOk_snd m (nftRuleFor r ips)
      rw [haddr] at h2
      exact h2
    subst hok
    have hsets : alookup m'.kernel.sets (setNameFor r.name) =
        some ((alookup m.kernel.sets (setNameFor r.name)).getD [] ++
          parseSetElems ips) := by
      have h3 := addRule_allOk_sets m (nftRuleFor r ips) hips
      rw [haddr] at h3
      exact h3
    by_cases hr : rest = []
    · subst hr
      simp [domainLoop, hw, hres, haddr, hsets]
    · have IH := ih (fun x hx => hall x (by simp [hx])) hr m'
        (trace ++ [nftRuleFor r ips])
      simp only [domainLoop, hw, hres, haddr, Bool.false_eq_true, if_false,
        if_true, eq_self_iff_true]
      rw [IH, hsets]
      simp [hres, List.append_assoc]

lemma filterMap_resolved (resolve : Str → Option (List Str)) (r : CfgRule) :
    ∀ ds : List Str,
      (∀ d ∈ ds, isWildcard d = false ∧ ∃ ips, resolve d = some ips ∧ ips ≠ []) →
      ds.filterMap (fun d =>
          if isWildcard d then none
          else (resolve d).map (fun ips => nftRuleFor r ips)) =
        ds.map (fun d => nftRuleFor r ((resolve d).getD [])) := by
  intro ds
  induction ds with
  | nil => intro _; simp
  | cons d rest ih =>
    intro hall
    obtain ⟨hw, ips, hres, _⟩ := hall d (by simp)
    have IH := ih (fun x hx => hall x (by simp [hx]))
    simp [hw, hres, IH]

/-- C4 amended: a rule whose egress names only domains (no literal IPs),
all non-wildcard and resolvable, yields one `AddRule` call per domain,
each call carrying exactly that domain's own resolved addresses; but every
call carries the same rule name, so all the compiled sub-rules resolve to
the one kernel set named for the rule, whose final membership accumulates
every domain's addresses. -/
theorem domain_rule_per_domain_calls_shared_set :
    ∀ (resolve : Str → Option (List Str)) (m : Manager) (r : CfgRule),
      r.egress.ips = [] →
      r.egress.domains ≠ [] →
      (∀ d ∈ r.egress.domains, isWildcard d = false ∧
        ∃ ips, resolve d = some ips ∧ ips ≠ []) →
      ((applyRuleGo allOk resolve m r).2.1 =
          r.egress.domains.map (fun d => nftRuleFor r ((resolve d).getD []))) ∧
        (∀ call ∈ (applyRuleGo allOk resolve m r).2.1, call.name = r.name) ∧
        (alookup (applyRuleGo allOk resolve m r).1.kernel.sets
            (setNameFor r.name) =
          some ((alookup m.kernel.sets (setNameFor r.name)).getD [] ++
            (r.egress.domains.map
              (fun d => parseSetElems ((resolve d).getD []))).flatten)) := by
  intro resolve m r hips hdom hall
  rcases hdla : domainLoop allOk resolve r m [] r.egress.domains with ⟨m1, t1, ok1⟩
  have hdl := domainLoop_allOk resolve r r.egress.domains m []
  rw [hdla] at hdl
  simp only at hdl
  have hsets := domainLoop_allOk_sets resolve r r.egress.domains hall hdom m []
  rw [hdla] at hsets
  simp only at hsets
  have hok1 : ok1 = true := hdl.2
  subst hok1
  have ht1 : t1 = r.egress.domains.map (fun d => nftRuleFor r ((resolve d).getD [])) := by
    rw [hdl.1]
    simp [filterMap_resolved resolve r r.egress.domains hall]
  have happ : applyRuleGo allOk resolve m r = (m1, t1, true) := by
    simp [applyRuleGo, hdom, hips, hdla]
  rw [happ]
  refine ⟨ht1, ?_, hsets⟩
  intro call hcall
  rw [ht1] at hcall
  obtain ⟨d, _, rfl⟩ := List.mem_map.mp hcall
  rfl

/-- Witness for the amended C4 theorem on a concrete two-domain rule. -/
theorem domain_rule_per_domain_calls_shared_set_witness :
    ((applyRuleGo allOk resolveAB (Manager.setup allOk Manager.new).1
        twoDomainRule).2.1 =
      twoDomainRule.egress.domains.map
        (fun d => nftRuleFor twoDomainRule ((resolveAB d).getD []))) ∧
    (alookup (applyRuleGo allOk resolveAB (Manager.setup allOk Manager.new).1
        twoDomainRule).1.kernel.sets (setNameFor twoDomainRule.name) =
      some [[1, 1, 1, 1], [2, 2, 2, 2]]) := by
  have h := domain_rule_per_domain_calls_shared_set resolveAB
    (Manager.setup allOk Manager.new).1 twoDomainRule rfl (by decide)
    (by
      intro d hd
      simp only [twoDomainRule, List.mem_cons, List.not_mem_nil, or_false] at hd
      rcases hd with rfl | rfl
      · exact ⟨by decide, ["1.1.1.1".toList], by decide, by decide⟩
      · exact ⟨by decide, ["2.2.2.2".toList], by decide, by decide⟩)
  refine ⟨h.1, ?_⟩
  rw [h.2.2]
  decide

/-! ## Rule ordering: `sort.Slice` and ties (claim C6) -/

/-- An order-only rule for exercising the sort. -/
def mkOrderRule (name : Str) (order : Int) : CfgRule :=
  ⟨name, "allow".toList, order, ⟨[], [], [], []⟩⟩

/-- Thirteen rules alternating between order 1 and order 2: one more than
the sort's insertion-sort cutoff of twelve. -/
def rules13 : List CfgRule :=
  [mkOrderRule "a".toList 1, mkOrderRule "b".toList 2, mkOrderRule "c".toList 1,
   mkOrderRule "d".toList 2, mkOrderRule "e".toList 1, mkOrderRule "f".toList 2,
   mkOrderRule "g".toList 1, mkOrderRule "h".toList 2, mkOrderRule "i".toList 1,
   mkOrderRule "j".toList 2, mkOrderRule "k".toList 1, mkOrderRule "l".toList 2,
   mkOrderRule "m".toList 1]

/-- C6: refuted on the code — at thirteen rules the pdqsort behind
`sort.Slice` leaves the order-1 ties as `i,m,c,a,e,k,g` instead of the
input order `a,c,e,g,i,k,m`: the result is sorted by order and a
permutation of the input, but rules with equal order are not applied in
their original input order. -/
theorem sortRules_reorders_ties_at_13 :
    ((sortRules rules13).map CfgRule.name =
      ["i".toList, "m".toList, "c".toList, "a".toList, "e".toList, "k".toList,
       "g".toList, "d".toList, "h".toList, "j".toList, "f".toList, "l".toList,
       "b".toList]) ∧
    (((sortRules rules13).filter (fun r => decide (r.order = 1))).map CfgRule.name ≠
      ((rules13.filter (fun r => decide (r.order = 1))).map CfgRule.name)) ∧
    ((sortRules rules13).map CfgRule.order =
      [1, 1, 1, 1, 1, 1, 1, 2, 2, 2, 2, 2, 2]) ∧
    (sortRules rules13).Perm rules13 := by
  refine ⟨by decide, by decide, by decide, by decide⟩

/-- The priority order relation the sort establishes. -/
def ruleLe (x y : CfgRule) : Prop := x.order ≤ y.order

lemma ruleLt_iff (x y : CfgRule) : ruleLt x y = true ↔ x.order < y.order := by
  rw [ruleLt]
  exact decide_eq_true_iff

lemma goOrderedInsert_perm {α : Type} (lt : α → α → Bool) (x : α) :
    ∀ l : List α, (goOrderedInsert lt x l).Perm (x :: l) := by
  intro l
  induction l with
  | nil => exact List.Perm.refl _
  | cons y ys ih =>
    by_cases h : lt x y = true
    · rw [goOrderedInsert, if_pos h]
    · rw [goOrderedInsert, if_neg h]
      exact (ih.cons y).trans (List.Perm.swap x y ys)

lemma goOrderedInsert_sorted (x : CfgRule) :
    ∀ l : List CfgRule, List.Sorted ruleLe l →
      List.Sorted ruleLe (goOrderedInsert ruleLt x l) := by
  intro l
  induction l with
  | nil => intro _; simp [goOrderedInsert, List.sorted_singleton]
  | cons y ys ih =>
    intro hs
    rw [List.sorted_cons] at hs
    by_cases h : ruleLt x y = true
    · rw [ruleLt_iff] at h
      rw [goOrderedInsert, if_pos (by rw [ruleLt_iff]; exact h)]
      rw [List.sorted_cons]
      refine ⟨?_, List.sorted_cons.mpr hs⟩
      intro b hb
      rcases List.mem_cons.mp hb with rfl | hb
      · exact le_of_lt h
      · exact le_trans (le_of_lt h) (hs.1 b hb)
    · have hyx : y.order ≤ x.order := by
        rw [ruleLt_iff] at h
        omega
      rw [goOrderedInsert, if_neg h]
      rw [List.sorted_cons]
      constructor
      · intro b hb
        have hb2 := (goOrderedInsert_perm ruleLt x ys).mem_iff.mp hb
        rcases List.mem_cons.mp hb2 with rfl | hb2
        · exact hyx
        · exact hs.1 b hb2
      · exact ih hs.2

lemma goInsertionSort_aux_perm :
    ∀ (l acc : List CfgRule),
      (l.foldl (fun acc x => goOrderedInsert ruleLt x acc) acc).Perm (acc ++ l) := by
  intro l
  induction l with
  | nil => intro acc; simp
  | cons x xs ih =>
    intro acc
    have h1 := ih (goOrderedInsert ruleLt x acc)
    have h2 : (goOrderedInsert ruleLt x acc ++ xs).Perm (acc ++ x :: xs) := by
      have h3 := (goOrderedInsert_perm ruleLt x acc).append_right xs
      refine h3.trans ?_
      have h4 : ((x :: acc) ++ xs).Perm (acc ++ x :: xs) := by
        simpa using (@List.perm_middle _ x acc xs).symm
      exact h4
    simpa using h1.trans h2

lemma goInsertionSort_perm (l : List CfgRule) :
    (goInsertionSort ruleLt l).Perm l := by
  have h := goInsertionSort_aux_perm l []
  simpa [goInsertionSort] using h

lemma goInsertionSort_aux_sorted :
    ∀ (l acc : List CfgRule), List.Sorted ruleLe acc →
      List.Sorted ruleLe
        (l.foldl (fun acc x => goOrderedInsert ruleLt x acc) acc) := by
  intro l
  induction l with
  | nil => intro acc h; simpa using h
  | cons x xs ih =>
    intro acc h
    exact ih (goOrderedInsert ruleLt x acc) (goOrderedInsert_sorted x acc h)

lemma goInsertionSort_sorted (l : List CfgRule) :
    List.Sorted ruleLe (goInsertionSort ruleLt l) :=
  goInsertionSort_aux_sorted l [] (by simp)

lemma goOrderedInsert_filter_eq (o : Int) (x : CfgRule) (hx : x.order = o) :
    ∀ l : List CfgRule, List.Sorted ruleLe l →
      (goOrderedInsert ruleLt x l).filter (fun r => decide (r.order = o)) =
        l.filter (fun r => decide (r.order = o)) ++ [x] := by
  intro l
  induction l with
  | nil => intro _; simp [goOrderedInsert, hx]
  | cons y ys ih =>
    intro hs
    rw [List.sorted_cons] at hs
    by_cases h : ruleLt x y = true
    · rw [goOrderedInsert, if_pos h]
      rw [ruleLt_iff] at h
      have hyo : ¬ (y.order = o) := by rw [← hx]; omega
      have hall : (y :: ys).filter (fun r => decide (r.order = o)) = [] := by
        rw [List.filter_eq_nil_iff]
        intro b hb
        rcases List.mem_cons.mp hb with rfl | hb
        · simp [hyo]
        · have hble : y.order ≤ b.order := hs.1 b hb
          have : ¬ (b.order = o) := by rw [← hx]; omega
          simp [this]
      rw [List.filter_cons_of_pos (by simp [hx]), hall]
      simp
    · rw [goOrderedInsert, if_neg h]
      by_cases hy : y.order = o
      · rw [List.filter_cons_of_pos (by simp [hy]),
          List.filter_cons_of_pos (by simp [hy]), ih hs.2]
        simp
      · rw [List.filter_cons_of_neg (by simp [hy]),
          List.filter_cons_of_neg (by simp [hy]), ih hs.2]

lemma goOrderedInsert_filter_ne (o : Int) (x : CfgRule) (hx : ¬ (x.order = o)) :
    ∀ l : List CfgRule,
      (goOrderedInsert ruleLt x l).filter (fun r => decide (r.order = o)) =
        l.filter (fun r => decide (r.order = o)) := by
  intro l
  induction l with
  | nil => simp [goOrderedInsert, hx]
  | cons y ys ih =>
    by_cases h : ruleLt x y = true
    · rw [goOrderedInsert, if_pos h, List.filter_cons_of_neg (by simp [hx])]
    · rw [goOrderedInsert, if_neg h]
      by_cases hy : y.order = o
      · rw [List.filter_cons_of_pos (by simp [hy]),
          List.filter_cons_of_pos (by simp [hy]), ih]
      · rw [List.filter_cons_of_neg (by simp [hy]),
          List.filter_cons_of_neg (by simp [hy]), ih]

lemma goInsertionSort_aux_filter (o : Int) :
    ∀ (l acc : List CfgRule), List.Sorted ruleLe acc →
      (l.foldl (fun acc x => goOrderedInsert ruleLt x acc) acc).filter
          (fun r => decide (r.order = o)) =
        acc.filter (fun r => decide (r.order = o)) ++
          l.filter (fun r => decide (r.order = o)) := by
  intro l
  induction l with
  | nil => intro acc _; simp
  | cons x xs ih =>
    intro acc hacc
    rw [List.foldl_cons]
    rw [ih (goOrderedInsert ruleLt x acc) (goOrderedInsert_sorted x acc hacc)]
    by_cases hx : x.order = o
    · rw [goOrderedInsert_filter_eq o x hx acc hacc,
        List.filter_cons_of_pos (by simp [hx])]
      simp
    · rw [goOrderedInsert_filter_ne o x hx acc,
        List.filter_cons_of_neg (by simp [hx])]

lemma goInsertionSort_filter (o : Int) (l : List CfgRule) :
    (goInsertionSort ruleLt l).filter (fun r => decide (r.order = o)) =
      l.filter (fun r => decide (r.order = o)) := by
  have h := goInsertionSort_aux_filter o l [] (by simp)
  simpa [goInsertionSort] using h

lemma subSlice_full {α : Type} (l : List α) : subSlice l 0 l.length = l := by
  simp [subSlice]

lemma splice_full {α : Type} (l s : List α) : splice l 0 l.length s = s := by
  simp [splice]

lemma sortSliceGo_small {α : Type} [Inhabited α] (lt : α → α → Bool)
    (l : List α) (h : l.length ≤ 12) :
    sortSliceGo lt l = goInsertionSort lt l := by
  rw [sortSliceGo]
  have hfuel : l.length * l.length + 64 = (l.length * l.length + 63) + 1 := rfl
  rw [hfuel, pdqsortLoop]
  rw [if_pos (by omega : l.length - 0 ≤ 12)]
  rw [insertionSortRange, subSlice_full, splice_full]

/-- C6 amended: the rule sort orders rules by ascending order value (a
sorted permutation of the input); rules with equal order keep their
original input order only while the rule list has at most twelve entries —
the regime in which `sort.Slice` runs its stable insertion sort.  Beyond
twelve entries tie order can change (see the thirteen-rule refutation). -/
theorem sortRules_sorted_and_stable_up_to_12 :
    ∀ l : List CfgRule, l.length ≤ 12 →
      sortRules l = goInsertionSort ruleLt l ∧
        List.Sorted ruleLe (sortRules l) ∧
        (sortRules l).Perm l ∧
        ∀ o : Int, (sortRules l).filter (fun r => decide (r.order = o)) =
          l.filter (fun r => decide (r.order = o)) := by
  intro l h
  have heq : sortRules l = goInsertionSort ruleLt l := sortSliceGo_small ruleLt l h
  refine ⟨heq, ?_, ?_, ?_⟩
  · rw [heq]; exact goInsertionSort_sorted l
  · rw [heq]; exact goInsertionSort_perm l
  · intro o; rw [heq]; exact goInsertionSort_filter o l

/-- Witness for the bounded stability theorem on a concrete tied list. -/
theorem sortRules_sorted_and_stable_up_to_12_witness :
    sortRules [mkOrderRule "x".toList 2, mkOrderRule "y".toList 1,
        mkOrderRule "z".toList 1] =
      [mkOrderRule "y".toList 1, mkOrderRule "z".toList 1,
        mkOrderRule "x".toList 2] ∧
    (sortRules [mkOrderRule "x".toList 2, mkOrderRule "y".toList 1,
        mkOrderRule "z".toList 1]).filter (fun r => decide (r.order = 1)) =
      [mkOrderRule "y".toList 1, mkOrderRule "z".toList 1] := by
  have h := sortRules_sorted_and_stable_up_to_12
    [mkOrderRule "x".toList 2, mkOrderRule "y".toList 1, mkOrderRule "z".toList 1]
    (by decide)
  constructor
  · rw [h.1]; decide
  · rw [h.2.2.2 1]; decide
